import Mathlib

/-!
Verification of the PageRank core (`pagerank.py`): the corpus graph model,
the transition model, the sampling estimator and the iterative estimator,
shallowly embedded over exact rational arithmetic.
-/

namespace PageRank

/-- A page is an opaque string identifier. -/
abbrev Page := String

/-- The corpus: the set of pages together with the out-link map
(`corpus` dict in the source: keys are `pages`, values are `links p`). -/
structure Corpus where
  pages : Finset Page
  links : Page → Finset Page

/-- Well-formedness invariant established by `crawl`: every out-link target
is itself a page of the corpus. -/
def Corpus.Wf (c : Corpus) : Prop := ∀ p ∈ c.pages, c.links p ⊆ c.pages

instance (c : Corpus) : Decidable c.Wf := Finset.decidableDforallFinset

/-- The failures the source can raise: `ValueError` for a page missing from
the corpus, `ValueError` for a non-positive sample count, and the `IndexError`
of `random.choice` on an empty sequence. -/
inductive PRError where
  | unknownPage (page : Page)
  | invalidSamples
  | emptySequence
  deriving DecidableEq

/-- A probability table as the source builds it: the set of keys of the dict
together with the value at each key (`val p = 0` off the keys). -/
structure Dist where
  keys : Finset Page
  val : Page → ℚ

/-- The source's `transition_model(corpus, page, damping_factor)`: the one-step random-surfer
distribution.  Raises for a page outside the corpus; otherwise every page gets
base mass `(1-d)/N`, each out-link additionally `d/L`; a dead end gets the
uniform distribution `1/N`. -/
def transition_model (corpus : Corpus) (page : Page) (damping_factor : ℚ) :
    Except PRError Dist :=
  if page ∉ corpus.pages then
    .error (.unknownPage page)
  else
    let total_pages : ℚ := (corpus.pages.card : ℚ)
    let links := corpus.links page
    if 0 < links.card then
      .ok ⟨corpus.pages, fun p =>
        if p ∈ corpus.pages then
          (1 - damping_factor) / total_pages +
            (if p ∈ links then damping_factor / (links.card : ℚ) else 0)
        else 0⟩
    else
      .ok ⟨corpus.pages, fun p => if p ∈ corpus.pages then 1 / total_pages else 0⟩

/-- The sampling loop of `sample_pagerank`: `k` remaining samples, the current
page, and the visit counters.  The random draw of `random.choices` is an
oracle `chooser` that picks the next page from the transition distribution. -/
def sampleLoop (corpus : Corpus) (damping_factor : ℚ) (chooser : ℕ → Dist → Page) :
    ℕ → Page → (Page → ℕ) → Except PRError (Page → ℕ)
  | 0, _, counts => .ok counts
  | k + 1, current, counts =>
    match transition_model corpus current damping_factor with
    | .error e => .error e
    | .ok dist =>
      let nxt := chooser k dist
      sampleLoop corpus damping_factor chooser k nxt
        (fun p => if p = nxt then counts p + 1 else counts p)

/-- The source's `sample_pagerank(corpus, damping_factor, n)`: rejects `n ≤ 0`, then starts
from the oracle-chosen `start` page (`random.choice` fails with `IndexError`
on an empty corpus), walks `n - 1` further steps, and returns visit
frequencies `count / n` over the corpus pages. -/
def sample_pagerank (corpus : Corpus) (damping_factor : ℚ) (n : ℤ)
    (start : Page) (chooser : ℕ → Dist → Page) : Except PRError Dist :=
  if n ≤ 0 then .error .invalidSamples
  else if corpus.pages = ∅ then .error .emptySequence
  else
    match sampleLoop corpus damping_factor chooser (n - 1).toNat start
        (fun p => if p = start then 1 else 0) with
    | .error e => .error e
    | .ok counts =>
      .ok ⟨corpus.pages, fun p =>
        if p ∈ corpus.pages then (counts p : ℚ) / (n : ℚ) else 0⟩

/-- The in-place dead-end normalization at the start of `iterate_pagerank`:
every page of the corpus with an empty out-link set has all corpus pages
(itself included) added to its out-links. -/
def normalize (c : Corpus) : Corpus :=
  ⟨c.pages, fun p => if p ∈ c.pages ∧ c.links p = ∅ then c.pages else c.links p⟩

/-- The initial rank table of `iterate_pagerank`: `1 / len(corpus)` on every
page of the corpus. -/
def initRanks (c : Corpus) : Page → ℚ :=
  fun p => if p ∈ c.pages then 1 / (c.pages.card : ℚ) else 0

/-- One iteration of the PageRank recurrence as the source computes it:
`new_ranks[page] = (1-d)/N + d * Σ_{q with page ∈ links q} ranks q / |links q|`. -/
def stepRanks (c : Corpus) (damping_factor : ℚ) (ranks : Page → ℚ) : Page → ℚ :=
  fun page =>
    if page ∈ c.pages then
      (1 - damping_factor) / (c.pages.card : ℚ) +
        damping_factor *
          ∑ q ∈ c.pages,
            (if page ∈ c.links q then ranks q / ((c.links q).card : ℚ) else 0)
    else 0

/-- The convergence test of `iterate_pagerank`:
`all(abs(new_ranks[page] - ranks[page]) < 0.001 for page in corpus)`. -/
def allClose (c : Corpus) (newRanks oldRanks : Page → ℚ) : Prop :=
  ∀ p ∈ c.pages, |newRanks p - oldRanks p| < 1 / 1000

instance (c : Corpus) (newRanks oldRanks : Page → ℚ) :
    Decidable (allClose c newRanks oldRanks) :=
  Finset.decidableDforallFinset

/-- The while-not-converged loop of `iterate_pagerank`, with an explicit
fuel bound (the source loops unboundedly; `none` models fuel exhaustion). -/
def iterLoop (c : Corpus) (damping_factor : ℚ) : ℕ → (Page → ℚ) → Option (Page → ℚ)
  | 0, _ => none
  | fuel + 1, ranks =>
    let new_ranks := stepRanks c damping_factor ranks
    if allClose c new_ranks ranks then some new_ranks
    else iterLoop c damping_factor fuel new_ranks

/-- The source's `iterate_pagerank(corpus, damping_factor)`: initial ranks `1/N`, in-place
dead-end normalization, then the iteration loop.  The result pairs the
returned rank table with the corpus object as the caller observes it after
the call (the source mutates `corpus` in place). -/
def iterate_pagerank (corpus : Corpus) (damping_factor : ℚ) (fuel : ℕ) :
    Option ((Page → ℚ) × Corpus) :=
  (iterLoop (normalize corpus) damping_factor fuel (initRanks corpus)).map
    (fun r => (r, normalize corpus))

/-- The trajectory of successive rank tables of the iteration loop. -/
def traj (c : Corpus) (damping_factor : ℚ) (r0 : Page → ℚ) : ℕ → (Page → ℚ)
  | 0 => r0
  | k + 1 => stepRanks c damping_factor (traj c damping_factor r0 k)

/-! Concrete corpora used as witnesses. -/

/-- The two-page cycle `{a: {b}, b: {a}}`. -/
def twoCycle : Corpus :=
  ⟨{"a", "b"}, fun p => if p = "a" then {"b"} else if p = "b" then {"a"} else ∅⟩

/-- The corpus `{a: {}, b: {a}}`, where `a` is a dead end. -/
def deadEndCorpus : Corpus :=
  ⟨{"a", "b"}, fun p => if p = "b" then {"a"} else ∅⟩

/-- The empty corpus. -/
def emptyCorpus : Corpus := ⟨∅, fun _ => ∅⟩

/-- A concrete next-page oracle: the least key of the distribution. -/
def chooserMin : ℕ → Dist → Page :=
  fun _ dist => if h : dist.keys.Nonempty then dist.keys.min' h else "a"

/-! Basic lemmas about the embedded definitions. -/

lemma normalize_pages (c : Corpus) : (normalize c).pages = c.pages := rfl

lemma transition_ok (corpus : Corpus) (page : Page) (d : ℚ)
    (hp : page ∈ corpus.pages) :
    ∃ dist, transition_model corpus page d = .ok dist ∧ dist.keys = corpus.pages := by
  unfold transition_model
  rw [if_neg (not_not_intro hp)]
  by_cases hL : 0 < (corpus.links page).card
  · rw [if_pos hL]
    exact ⟨_, rfl, rfl⟩
  · rw [if_neg hL]
    exact ⟨_, rfl, rfl⟩

lemma card_pos_of_mem {s : Finset Page} {p : Page} (hp : p ∈ s) : 0 < s.card :=
  Finset.card_pos.mpr ⟨p, hp⟩

/-- C1: for every (well-formed) corpus, every page with a non-empty out-link
set (L out-links, N pages) and every damping factor 0 < d < 1, the transition
model assigns `(1-d)/N + d/L` to each linked page and `(1-d)/N` to each
non-linked page. -/
theorem transition_model_linked_formula (corpus : Corpus) (page : Page) (d : ℚ)
    (hW : corpus.Wf) (hp : page ∈ corpus.pages)
    (hNE : (corpus.links page).Nonempty) (hd0 : 0 < d) (hd1 : d < 1) :
    ∃ dist, transition_model corpus page d = .ok dist ∧
      (∀ p ∈ corpus.links page,
        dist.val p = (1 - d) / (corpus.pages.card : ℚ)
          + d / ((corpus.links page).card : ℚ)) ∧
      (∀ p ∈ corpus.pages, p ∉ corpus.links page →
        dist.val p = (1 - d) / (corpus.pages.card : ℚ)) := by
  unfold transition_model
  rw [if_neg (not_not_intro hp), if_pos (Finset.card_pos.mpr hNE)]
  refine ⟨_, rfl, ?_, ?_⟩
  · intro p hpl
    have hpc : p ∈ corpus.pages := hW page hp hpl
    simp [hpc, hpl]
  · intro p hpc hpl
    simp [hpc, hpl]

/-- Witness for C1 on the two-page cycle with d = 17/20. -/
theorem transition_model_linked_formula_witness :
    twoCycle.Wf ∧ "a" ∈ twoCycle.pages ∧ (twoCycle.links "a").Nonempty ∧
      (0 : ℚ) < 17/20 ∧ (17/20 : ℚ) < 1 ∧
      (∃ dist, transition_model twoCycle "a" (17/20) = .ok dist ∧
        (∀ p ∈ twoCycle.links "a",
          dist.val p = (1 - 17/20) / (twoCycle.pages.card : ℚ)
            + (17/20) / ((twoCycle.links "a").card : ℚ)) ∧
        (∀ p ∈ twoCycle.pages, p ∉ twoCycle.links "a" →
          dist.val p = (1 - 17/20) / (twoCycle.pages.card : ℚ))) :=
  ⟨by decide, by decide, by decide, by norm_num, by norm_num,
    transition_model_linked_formula twoCycle "a" (17/20) (by decide) (by decide)
      (by decide) (by norm_num) (by norm_num)⟩

/-- C4: for every (well-formed) corpus, every page in it, and every damping
factor 0 < d < 1, the transition model succeeds with exactly one entry per
corpus page, and the entries sum to exactly 1 in rational arithmetic, in both
the linked and the dead-end branch, with no renormalization step. -/
theorem transition_model_sums_to_one (corpus : Corpus) (page : Page) (d : ℚ)
    (hW : corpus.Wf) (hp : page ∈ corpus.pages) (hd0 : 0 < d) (hd1 : d < 1) :
    ∃ dist, transition_model corpus page d = .ok dist ∧
      dist.keys = corpus.pages ∧ ∑ p ∈ corpus.pages, dist.val p = 1 := by
  have hNcard : 0 < corpus.pages.card := card_pos_of_mem hp
  have hN : (corpus.pages.card : ℚ) ≠ 0 := by positivity
  unfold transition_model
  rw [if_neg (not_not_intro hp)]
  by_cases hL : 0 < (corpus.links page).card
  · rw [if_pos hL]
    refine ⟨_, rfl, rfl, ?_⟩
    have hLQ : ((corpus.links page).card : ℚ) ≠ 0 := by positivity
    have hsum :
        ∑ p ∈ corpus.pages,
          (if p ∈ corpus.pages then
            (1 - d) / (corpus.pages.card : ℚ)
              + (if p ∈ corpus.links page then d / ((corpus.links page).card : ℚ) else 0)
          else 0)
        = ∑ p ∈ corpus.pages,
            ((1 - d) / (corpus.pages.card : ℚ)
              + (if p ∈ corpus.links page then d / ((corpus.links page).card : ℚ) else 0)) :=
      Finset.sum_congr rfl (fun p hpc => if_pos hpc)
    rw [hsum, Finset.sum_add_distrib, Finset.sum_const, Finset.sum_ite_mem,
      Finset.inter_eq_right.mpr (hW page hp), Finset.sum_const, nsmul_eq_mul, nsmul_eq_mul]
    field_simp
  · rw [if_neg hL]
    refine ⟨_, rfl, rfl, ?_⟩
    have hsum :
        ∑ p ∈ corpus.pages,
          (if p ∈ corpus.pages then 1 / (corpus.pages.card : ℚ) else 0)
        = ∑ p ∈ corpus.pages, 1 / (corpus.pages.card : ℚ) :=
      Finset.sum_congr rfl (fun p hpc => if_pos hpc)
    rw [hsum, Finset.sum_const, nsmul_eq_mul]
    field_simp

/-- Witness for C4 on the dead-end corpus at its dead-end page with d = 17/20. -/
theorem transition_model_sums_to_one_witness :
    deadEndCorpus.Wf ∧ "a" ∈ deadEndCorpus.pages ∧
      (0 : ℚ) < 17/20 ∧ (17/20 : ℚ) < 1 ∧
      (∃ dist, transition_model deadEndCorpus "a" (17/20) = .ok dist ∧
        dist.keys = deadEndCorpus.pages ∧ ∑ p ∈ deadEndCorpus.pages, dist.val p = 1) :=
  ⟨by decide, by decide, by norm_num, by norm_num,
    transition_model_sums_to_one deadEndCorpus "a" (17/20) (by decide) (by decide)
      (by norm_num) (by norm_num)⟩

/-- C9: applying the iterative estimator's dead-end normalization twice
produces the same corpus as applying it once, for every corpus. -/
theorem normalize_idempotent : ∀ c : Corpus, normalize (normalize c) = normalize c := by
  intro c
  unfold normalize
  congr 1
  funext p
  by_cases hp : p ∈ c.pages
  · by_cases h0 : c.links p = ∅
    · have hne : c.pages ≠ ∅ := Finset.ne_empty_of_mem hp
      simp [hp, h0, hne]
    · simp [hp, h0]
  · simp [hp]

lemma transition_model_error (corpus : Corpus) (page : Page) (d : ℚ) (e : PRError)
    (h : transition_model corpus page d = .error e) : e = .unknownPage page := by
  unfold transition_model at h
  split at h
  · exact (Except.error.inj h).symm
  · dsimp only at h
    split at h <;> simp at h

lemma sampleLoop_error_unknownPage (corpus : Corpus) (d : ℚ)
    (chooser : ℕ → Dist → Page) :
    ∀ (k : ℕ) (current : Page) (counts : Page → ℕ) (e : PRError),
      sampleLoop corpus d chooser k current counts = .error e →
      ∃ page, e = .unknownPage page := by
  intro k
  induction k with
  | zero =>
    intro current counts e h
    simp [sampleLoop] at h
  | succ k ih =>
    intro current counts e h
    unfold sampleLoop at h
    cases htm : transition_model corpus current d with
    | error e2 =>
      rw [htm] at h
      exact ⟨current, (Except.error.inj h).symm.trans
        (transition_model_error corpus current d e2 htm)⟩
    | ok dist =>
      rw [htm] at h
      exact ih _ _ _ h

/-- C8: the sampling estimator fails with the invalid-sample-count error
exactly when `n ≤ 0`, independently of the corpus, the damping factor and the
random draws (so the failure happens before any sample is taken). -/
theorem sample_pagerank_invalid_iff (corpus : Corpus) (d : ℚ) (n : ℤ)
    (start : Page) (chooser : ℕ → Dist → Page) :
    sample_pagerank corpus d n start chooser = .error .invalidSamples ↔ n ≤ 0 := by
  constructor
  · intro h
    by_contra hn
    unfold sample_pagerank at h
    rw [if_neg hn] at h
    by_cases hc : corpus.pages = ∅
    · rw [if_pos hc] at h
      simp at h
    · rw [if_neg hc] at h
      cases hsl : sampleLoop corpus d chooser (n - 1).toNat start
          (fun p => if p = start then 1 else 0) with
      | error e =>
        rw [hsl] at h
        obtain ⟨pg, rfl⟩ := sampleLoop_error_unknownPage corpus d chooser _ _ _ _ hsl
        simp at h
      | ok counts =>
        rw [hsl] at h
        simp at h
  · intro hn
    unfold sample_pagerank
    rw [if_pos hn]

/-- Witness for C8: a concrete call with n = -3 fails with the
invalid-sample-count error. -/
theorem sample_pagerank_invalid_iff_witness :
    sample_pagerank twoCycle (17/20) (-3) "a" chooserMin = .error .invalidSamples :=
  (sample_pagerank_invalid_iff twoCycle (17/20) (-3) "a" chooserMin).mpr (by decide)

lemma corpus_ext {c₁ c₂ : Corpus} (h1 : c₁.pages = c₂.pages)
    (h2 : ∀ p, c₁.links p = c₂.links p) : c₁ = c₂ := by
  cases c₁
  cases c₂
  simp only [Corpus.mk.injEq]
  exact ⟨h1, funext h2⟩

lemma dist_ext {d₁ d₂ : Dist} (h1 : d₁.keys = d₂.keys)
    (h2 : ∀ p, d₁.val p = d₂.val p) : d₁ = d₂ := by
  cases d₁
  cases d₂
  simp only [Dist.mk.injEq]
  exact ⟨h1, funext h2⟩

lemma iterLoop_succ (c : Corpus) (d : ℚ) (fuel : ℕ) (ranks : Page → ℚ) :
    iterLoop c d (fuel + 1) ranks =
      if allClose c (stepRanks c d ranks) ranks then some (stepRanks c d ranks)
      else iterLoop c d fuel (stepRanks c d ranks) := rfl

/-- The loop visits exactly the trajectory of `stepRanks` and stops at the
first index whose step is within the convergence threshold of its
predecessor; what it returns is that newly computed table. -/
lemma iterLoop_eq_traj (c : Corpus) (d : ℚ) (r0 : Page → ℚ) :
    ∀ (fuel m : ℕ) (r : Page → ℚ),
      iterLoop c d fuel (traj c d r0 m) = some r →
      ∃ k, m ≤ k ∧ r = traj c d r0 (k + 1) ∧
        allClose c (traj c d r0 (k + 1)) (traj c d r0 k) ∧
        ∀ j, m ≤ j → j < k → ¬ allClose c (traj c d r0 (j + 1)) (traj c d r0 j) := by
  intro fuel
  induction fuel with
  | zero =>
    intro m r h
    simp [iterLoop] at h
  | succ fuel ih =>
    intro m r h
    rw [iterLoop_succ] at h
    by_cases hcl : allClose c (stepRanks c d (traj c d r0 m)) (traj c d r0 m)
    · rw [if_pos hcl] at h
      refine ⟨m, le_refl m, (Option.some.inj h).symm, hcl, ?_⟩
      intro j hmj hjm
      omega
    · rw [if_neg hcl] at h
      obtain ⟨k, hk1, hk2, hk3, hk4⟩ := ih (m + 1) r h
      refine ⟨k, by omega, hk2, hk3, ?_⟩
      intro j hmj hjk
      rcases eq_or_lt_of_le hmj with heq | hlt
      · subst heq
        exact hcl
      · exact hk4 j hlt hjk

/-- C5: the iterative estimator's loop stops exactly at the first iteration
whose new table differs from the old one by strictly less than 0.001 on every
page (a per-page absolute threshold), and the returned table is the newly
computed one of that final iteration. -/
theorem iterate_pagerank_stops_at_convergence (corpus : Corpus) (d : ℚ) (fuel : ℕ)
    (h : (iterate_pagerank corpus d fuel).isSome = true) :
    ∃ k rc, iterate_pagerank corpus d fuel = some rc ∧
      rc.1 = traj (normalize corpus) d (initRanks corpus) (k + 1) ∧
      (∀ p ∈ corpus.pages,
        |traj (normalize corpus) d (initRanks corpus) (k + 1) p
          - traj (normalize corpus) d (initRanks corpus) k p| < 1 / 1000) ∧
      ∀ j < k, ¬ ∀ p ∈ corpus.pages,
        |traj (normalize corpus) d (initRanks corpus) (j + 1) p
          - traj (normalize corpus) d (initRanks corpus) j p| < 1 / 1000 := by
  obtain ⟨rc, hrc⟩ := Option.isSome_iff_exists.mp h
  obtain ⟨a, ha, hfa⟩ := Option.map_eq_some'.mp hrc
  obtain ⟨k, _, hk2, hk3, hk4⟩ := iterLoop_eq_traj (normalize corpus) d
    (initRanks corpus) fuel 0 a ha
  refine ⟨k, rc, hrc, ?_, hk3, ?_⟩
  · rw [← hfa]
    exact hk2
  · intro j hj hall
    exact hk4 j (Nat.zero_le j) hj hall

lemma stepRanks_twoCycle :
    stepRanks (normalize twoCycle) (17/20) (initRanks twoCycle) = initRanks twoCycle := by
  funext p
  simp only [stepRanks, initRanks, normalize, twoCycle]
  by_cases ha : p = "a"
  · subst ha
    rw [Finset.sum_insert (by decide), Finset.sum_singleton]
    simp +decide
    norm_num
  · by_cases hb : p = "b"
    · subst hb
      rw [Finset.sum_insert (by decide), Finset.sum_singleton]
      simp +decide
      norm_num
    · have hp : p ∉ ({"a", "b"} : Finset Page) := by simp [ha, hb]
      simp [hp]

lemma iterate_twoCycle_isSome : (iterate_pagerank twoCycle (17/20) 1).isSome = true := by
  have hclose : allClose (normalize twoCycle)
      (stepRanks (normalize twoCycle) (17/20) (initRanks twoCycle))
      (initRanks twoCycle) := by
    rw [stepRanks_twoCycle]
    intro p _
    norm_num
  unfold iterate_pagerank
  rw [show (1 : ℕ) = 0 + 1 from rfl, iterLoop_succ, if_pos hclose]
  rfl

/-- Witness for C5 on the two-page cycle with d = 17/20, where the loop
converges at the very first iteration. -/
theorem iterate_pagerank_stops_at_convergence_witness :
    (iterate_pagerank twoCycle (17/20) 1).isSome = true ∧
      (∃ k rc, iterate_pagerank twoCycle (17/20) 1 = some rc ∧
        rc.1 = traj (normalize twoCycle) (17/20) (initRanks twoCycle) (k + 1) ∧
        (∀ p ∈ twoCycle.pages,
          |traj (normalize twoCycle) (17/20) (initRanks twoCycle) (k + 1) p
            - traj (normalize twoCycle) (17/20) (initRanks twoCycle) k p| < 1 / 1000) ∧
        ∀ j < k, ¬ ∀ p ∈ twoCycle.pages,
          |traj (normalize twoCycle) (17/20) (initRanks twoCycle) (j + 1) p
            - traj (normalize twoCycle) (17/20) (initRanks twoCycle) j p| < 1 / 1000) :=
  ⟨iterate_twoCycle_isSome,
    iterate_pagerank_stops_at_convergence twoCycle (17/20) 1 iterate_twoCycle_isSome⟩

/-- C2: the iterative estimator initializes every page's rank to `1/N`, and
each iteration replaces the table by
`new(p) = (1-d)/N + d * Σ_{q → p} rank(q)/L(q)` where the links and out-link
counts are the ones after dead-end normalization; every returned table is such
an iterate. -/
theorem iterate_pagerank_recurrence (corpus : Corpus) (d : ℚ)
    (hne : corpus.pages.Nonempty) (hd0 : 0 < d) (hd1 : d < 1) :
    (∀ p ∈ corpus.pages, initRanks corpus p = 1 / (corpus.pages.card : ℚ)) ∧
    (∀ (k : ℕ) (p : Page), p ∈ corpus.pages →
      traj (normalize corpus) d (initRanks corpus) (k + 1) p
        = (1 - d) / (corpus.pages.card : ℚ)
          + d * ∑ q ∈ corpus.pages,
              (if p ∈ (normalize corpus).links q then
                traj (normalize corpus) d (initRanks corpus) k q
                  / (((normalize corpus).links q).card : ℚ)
              else 0)) ∧
    (∀ (fuel : ℕ) (rc : (Page → ℚ) × Corpus),
      iterate_pagerank corpus d fuel = some rc →
      ∃ k, rc.1 = traj (normalize corpus) d (initRanks corpus) (k + 1)) := by
  refine ⟨fun p hp => if_pos hp, fun k p hp => ?_, fun fuel rc hrc => ?_⟩
  · show stepRanks (normalize corpus) d _ p = _
    unfold stepRanks
    rw [if_pos (show p ∈ (normalize corpus).pages from hp)]
    rfl
  · unfold iterate_pagerank at hrc
    obtain ⟨a, ha, hfa⟩ := Option.map_eq_some'.mp hrc
    obtain ⟨k, _, hk2, _, _⟩ := iterLoop_eq_traj (normalize corpus) d
      (initRanks corpus) fuel 0 a ha
    refine ⟨k, ?_⟩
    rw [← hfa]
    exact hk2

/-- Witness for C2 on the two-page cycle with d = 17/20. -/
theorem iterate_pagerank_recurrence_witness :
    twoCycle.pages.Nonempty ∧ (0 : ℚ) < 17/20 ∧ (17/20 : ℚ) < 1 ∧
      ((∀ p ∈ twoCycle.pages, initRanks twoCycle p = 1 / (twoCycle.pages.card : ℚ)) ∧
      (∀ (k : ℕ) (p : Page), p ∈ twoCycle.pages →
        traj (normalize twoCycle) (17/20) (initRanks twoCycle) (k + 1) p
          = (1 - 17/20) / (twoCycle.pages.card : ℚ)
            + (17/20) * ∑ q ∈ twoCycle.pages,
                (if p ∈ (normalize twoCycle).links q then
                  traj (normalize twoCycle) (17/20) (initRanks twoCycle) k q
                    / (((normalize twoCycle).links q).card : ℚ)
                else 0)) ∧
      (∀ (fuel : ℕ) (rc : (Page → ℚ) × Corpus),
        iterate_pagerank twoCycle (17/20) fuel = some rc →
        ∃ k, rc.1 = traj (normalize twoCycle) (17/20) (initRanks twoCycle) (k + 1))) :=
  ⟨by decide, by norm_num, by norm_num,
    iterate_pagerank_recurrence twoCycle (17/20) (by decide) (by norm_num) (by norm_num)⟩

lemma initRanks_nonneg (c : Corpus) : ∀ p, 0 ≤ initRanks c p := by
  intro p
  unfold initRanks
  split
  · positivity
  · exact le_refl 0

lemma stepRanks_nonneg (c : Corpus) (d : ℚ) (ranks : Page → ℚ)
    (hd0 : 0 ≤ d) (hd1 : d ≤ 1) (hr : ∀ q, 0 ≤ ranks q) :
    ∀ p, 0 ≤ stepRanks c d ranks p := by
  intro p
  unfold stepRanks
  split
  · have h1 : (0 : ℚ) ≤ (1 - d) / (c.pages.card : ℚ) :=
      div_nonneg (by linarith) (Nat.cast_nonneg _)
    have h2 : (0 : ℚ) ≤ ∑ q ∈ c.pages,
        (if p ∈ c.links q then ranks q / ((c.links q).card : ℚ) else 0) := by
      refine Finset.sum_nonneg (fun q _ => ?_)
      split
      · exact div_nonneg (hr q) (Nat.cast_nonneg _)
      · exact le_refl 0
    exact add_nonneg h1 (mul_nonneg hd0 h2)
  · exact le_refl 0

lemma traj_nonneg (c : Corpus) (d : ℚ) (r0 : Page → ℚ)
    (hd0 : 0 ≤ d) (hd1 : d ≤ 1) (hr0 : ∀ p, 0 ≤ r0 p) :
    ∀ (k : ℕ) (p : Page), 0 ≤ traj c d r0 k p := by
  intro k
  induction k with
  | zero => exact hr0
  | succ k ih => exact stepRanks_nonneg c d _ hd0 hd1 ih

lemma stepRanks_lower (c : Corpus) (d : ℚ) (ranks : Page → ℚ)
    (hd0 : 0 ≤ d) (hr : ∀ q, 0 ≤ ranks q) :
    ∀ p ∈ c.pages, (1 - d) / (c.pages.card : ℚ) ≤ stepRanks c d ranks p := by
  intro p hp
  unfold stepRanks
  rw [if_pos hp]
  have h2 : (0 : ℚ) ≤ ∑ q ∈ c.pages,
      (if p ∈ c.links q then ranks q / ((c.links q).card : ℚ) else 0) := by
    refine Finset.sum_nonneg (fun q _ => ?_)
    split
    · exact div_nonneg (hr q) (Nat.cast_nonneg _)
    · exact le_refl 0
  exact le_add_of_nonneg_right (mul_nonneg hd0 h2)

/-- C10: every value of a rank table returned by the iterative estimator is at
least `(1-d)/N`, and hence strictly positive. -/
theorem iterate_pagerank_positive (corpus : Corpus) (d : ℚ)
    (hne : corpus.pages.Nonempty) (hd0 : 0 < d) (hd1 : d < 1) :
    ∀ (fuel : ℕ) (rc : (Page → ℚ) × Corpus),
      iterate_pagerank corpus d fuel = some rc →
      ∀ p ∈ corpus.pages,
        (1 - d) / (corpus.pages.card : ℚ) ≤ rc.1 p ∧ 0 < rc.1 p := by
  intro fuel rc hrc p hp
  unfold iterate_pagerank at hrc
  obtain ⟨a, ha, hfa⟩ := Option.map_eq_some'.mp hrc
  obtain ⟨k, _, hk2, _, _⟩ := iterLoop_eq_traj (normalize corpus) d
    (initRanks corpus) fuel 0 a ha
  have hnn : ∀ q, 0 ≤ traj (normalize corpus) d (initRanks corpus) k q :=
    traj_nonneg (normalize corpus) d (initRanks corpus) (le_of_lt hd0) (le_of_lt hd1)
      (initRanks_nonneg corpus) k
  have hlow : (1 - d) / (corpus.pages.card : ℚ)
      ≤ stepRanks (normalize corpus) d (traj (normalize corpus) d (initRanks corpus) k) p :=
    stepRanks_lower (normalize corpus) d _ (le_of_lt hd0) hnn p hp
  have hval : rc.1 p
      = stepRanks (normalize corpus) d (traj (normalize corpus) d (initRanks corpus) k) p := by
    rw [← hfa]
    exact congrFun hk2 p
  have hNpos : (0 : ℚ) < (corpus.pages.card : ℚ) := by
    exact_mod_cast Finset.card_pos.mpr hne
  have hbase : (0 : ℚ) < (1 - d) / (corpus.pages.card : ℚ) :=
    div_pos (by linarith) hNpos
  rw [hval]
  exact ⟨hlow, lt_of_lt_of_le hbase hlow⟩

/-- Witness for C10 on the two-page cycle with d = 17/20. -/
theorem iterate_pagerank_positive_witness :
    twoCycle.pages.Nonempty ∧ (0 : ℚ) < 17/20 ∧ (17/20 : ℚ) < 1 ∧
      (∀ (fuel : ℕ) (rc : (Page → ℚ) × Corpus),
        iterate_pagerank twoCycle (17/20) fuel = some rc →
        ∀ p ∈ twoCycle.pages,
          (1 - 17/20) / (twoCycle.pages.card : ℚ) ≤ rc.1 p ∧ 0 < rc.1 p) :=
  ⟨by decide, by norm_num, by norm_num,
    iterate_pagerank_positive twoCycle (17/20) (by decide) (by norm_num) (by norm_num)⟩

lemma sampleLoop_ok_sum (corpus : Corpus) (d : ℚ) (chooser : ℕ → Dist → Page)
    (hch : ∀ (i : ℕ) (dist : Dist), dist.keys.Nonempty → chooser i dist ∈ dist.keys) :
    ∀ (k : ℕ) (current : Page) (counts : Page → ℕ), current ∈ corpus.pages →
      ∃ counts', sampleLoop corpus d chooser k current counts = .ok counts' ∧
        ∑ p ∈ corpus.pages, counts' p = (∑ p ∈ corpus.pages, counts p) + k := by
  intro k
  induction k with
  | zero =>
    intro current counts hcur
    exact ⟨counts, rfl, by simp⟩
  | succ k ih =>
    intro current counts hcur
    obtain ⟨dist, hdist, hkeys⟩ := transition_ok corpus current d hcur
    have hnxt : chooser k dist ∈ corpus.pages := by
      rw [← hkeys]
      exact hch k dist (hkeys ▸ ⟨current, hcur⟩)
    obtain ⟨counts', hsl, hsum⟩ := ih (chooser k dist)
      (fun p => if p = chooser k dist then counts p + 1 else counts p) hnxt
    refine ⟨counts', ?_, ?_⟩
    · unfold sampleLoop
      rw [hdist]
      exact hsl
    · rw [hsum]
      have hone : ∑ p ∈ corpus.pages,
          (if p = chooser k dist then counts p + 1 else counts p)
          = (∑ p ∈ corpus.pages, counts p) + 1 := by
        have hsplit : ∀ p ∈ corpus.pages,
            (if p = chooser k dist then counts p + 1 else counts p)
              = counts p + (if p = chooser k dist then 1 else 0) := by
          intro p _
          split <;> simp
        rw [Finset.sum_congr rfl hsplit, Finset.sum_add_distrib,
          Finset.sum_ite_eq' corpus.pages (chooser k dist) (fun _ => 1), if_pos hnxt]
      rw [hone]
      omega

/-- C6: for a non-empty corpus, 0 < d < 1 and n ≥ 1, the sampling estimator
succeeds, covers exactly the corpus pages, assigns each page exactly its visit
count divided by n, has only non-negative entries, and the entries sum to
exactly 1 in rational arithmetic. -/
theorem sample_pagerank_valid (corpus : Corpus) (d : ℚ) (n : ℤ) (start : Page)
    (chooser : ℕ → Dist → Page) (hn : 1 ≤ n) (hne : corpus.pages.Nonempty)
    (hstart : start ∈ corpus.pages) (hd0 : 0 < d) (hd1 : d < 1)
    (hch : ∀ (i : ℕ) (dist : Dist), dist.keys.Nonempty → chooser i dist ∈ dist.keys) :
    ∃ dist counts,
      sampleLoop corpus d chooser (n - 1).toNat start
        (fun p => if p = start then 1 else 0) = .ok counts ∧
      sample_pagerank corpus d n start chooser = .ok dist ∧
      dist.keys = corpus.pages ∧
      (∀ p, dist.val p = if p ∈ corpus.pages then (counts p : ℚ) / (n : ℚ) else 0) ∧
      (∀ p, 0 ≤ dist.val p) ∧
      ∑ p ∈ corpus.pages, dist.val p = 1 := by
  obtain ⟨counts, hsl, hsum⟩ := sampleLoop_ok_sum corpus d chooser hch (n - 1).toNat
    start (fun p => if p = start then 1 else 0) hstart
  have hinit : ∑ p ∈ corpus.pages, (if p = start then 1 else 0) = 1 := by
    rw [Finset.sum_ite_eq' corpus.pages start (fun _ => 1), if_pos hstart]
  have hcountsum : ∑ p ∈ corpus.pages, counts p = 1 + (n - 1).toNat := by
    rw [hsum, hinit]
  have hok : sample_pagerank corpus d n start chooser
      = .ok ⟨corpus.pages, fun p =>
          if p ∈ corpus.pages then (counts p : ℚ) / (n : ℚ) else 0⟩ := by
    unfold sample_pagerank
    rw [if_neg (by omega), if_neg (Finset.nonempty_iff_ne_empty.mp hne), hsl]
  have hnQ : (0 : ℚ) < (n : ℚ) := by exact_mod_cast (by omega : (0 : ℤ) < n)
  refine ⟨_, counts, hsl, hok, rfl, fun p => rfl, ?_, ?_⟩
  · intro p
    dsimp only
    split
    · exact div_nonneg (Nat.cast_nonneg _) (le_of_lt hnQ)
    · exact le_refl 0
  · dsimp only
    have hcongr : ∀ p ∈ corpus.pages,
        (if p ∈ corpus.pages then (counts p : ℚ) / (n : ℚ) else 0)
          = (counts p : ℚ) / (n : ℚ) := fun p hp => if_pos hp
    rw [Finset.sum_congr rfl hcongr, ← Finset.sum_div, ← Nat.cast_sum, hcountsum]
    have h1 : ((1 + (n - 1).toNat : ℕ) : ℤ) = n := by omega
    have hcast : ((1 + (n - 1).toNat : ℕ) : ℚ) = (n : ℚ) := by exact_mod_cast h1
    rw [hcast]
    exact div_self (ne_of_gt hnQ)

/-- Witness for C6 on the two-page cycle with d = 17/20, n = 3 and the
least-key oracle. -/
theorem sample_pagerank_valid_witness :
    (1 : ℤ) ≤ 3 ∧ twoCycle.pages.Nonempty ∧ "a" ∈ twoCycle.pages ∧
      (0 : ℚ) < 17/20 ∧ (17/20 : ℚ) < 1 ∧
      (∃ dist counts,
        sampleLoop twoCycle (17/20) chooserMin ((3 : ℤ) - 1).toNat "a"
          (fun p => if p = "a" then 1 else 0) = .ok counts ∧
        sample_pagerank twoCycle (17/20) 3 "a" chooserMin = .ok dist ∧
        dist.keys = twoCycle.pages ∧
        (∀ p, dist.val p = if p ∈ twoCycle.pages then (counts p : ℚ) / ((3 : ℤ) : ℚ) else 0) ∧
        (∀ p, 0 ≤ dist.val p) ∧
        ∑ p ∈ twoCycle.pages, dist.val p = 1) :=
  ⟨by decide, by decide, by decide, by norm_num, by norm_num,
    sample_pagerank_valid twoCycle (17/20) 3 "a" chooserMin (by decide) (by decide)
      (by decide) (by norm_num) (by norm_num)
      (fun i dist h => by
        unfold chooserMin
        rw [dif_pos h]
        exact Finset.min'_mem dist.keys h)⟩

/-- C7 counterexample: on the empty corpus the iterative estimator does not
fail at all (with any error, typed or not): it succeeds, contradicting the
claim that every estimator call on an empty corpus fails with a corpus error. -/
theorem iterate_pagerank_empty_succeeds :
    (iterate_pagerank emptyCorpus (17/20) 1).isSome = true := by decide

/-- C7 amended: on an empty corpus, the sampling estimator (with n ≥ 1) fails
with the untyped IndexError of choosing a start page from an empty sequence,
while the iterative estimator does not fail: it returns the empty rank table. -/
theorem empty_corpus_estimators (corpus : Corpus) (d : ℚ) (n : ℤ) (start : Page)
    (chooser : ℕ → Dist → Page) (fuel : ℕ)
    (hc : corpus.pages = ∅) (hn : 1 ≤ n) (hf : 1 ≤ fuel) :
    sample_pagerank corpus d n start chooser = .error .emptySequence ∧
    (iterate_pagerank corpus d fuel).isSome = true ∧
    (∀ rc, iterate_pagerank corpus d fuel = some rc → ∀ p, rc.1 p = 0) := by
  have hclose : allClose (normalize corpus)
      (stepRanks (normalize corpus) d (initRanks corpus)) (initRanks corpus) := by
    unfold allClose
    intro p hp
    rw [normalize_pages, hc] at hp
    exact absurd hp (Finset.not_mem_empty p)
  refine ⟨?_, ?_, ?_⟩
  · unfold sample_pagerank
    rw [if_neg (by omega), if_pos hc]
  · obtain ⟨f, rfl⟩ : ∃ f, fuel = f + 1 := ⟨fuel - 1, by omega⟩
    unfold iterate_pagerank
    rw [iterLoop_succ, if_pos hclose]
    rfl
  · intro rc hrc p
    unfold iterate_pagerank at hrc
    obtain ⟨a, ha, hfa⟩ := Option.map_eq_some'.mp hrc
    obtain ⟨k, _, hk2, _, _⟩ := iterLoop_eq_traj (normalize corpus) d
      (initRanks corpus) fuel 0 a ha
    have hval : rc.1 p = stepRanks (normalize corpus) d
        (traj (normalize corpus) d (initRanks corpus) k) p := by
      rw [← hfa]
      exact congrFun hk2 p
    rw [hval]
    unfold stepRanks
    rw [if_neg]
    rw [normalize_pages, hc]
    exact Finset.not_mem_empty p

/-- Witness for the amended C7 on the concrete empty corpus. -/
theorem empty_corpus_estimators_witness :
    emptyCorpus.pages = ∅ ∧ (1 : ℤ) ≤ 1 ∧ (1 : ℕ) ≤ 1 ∧
      (sample_pagerank emptyCorpus (17/20) 1 "a" chooserMin = .error .emptySequence ∧
      (iterate_pagerank emptyCorpus (17/20) 1).isSome = true ∧
      (∀ rc, iterate_pagerank emptyCorpus (17/20) 1 = some rc → ∀ p, rc.1 p = 0)) :=
  ⟨by decide, by decide, by decide,
    empty_corpus_estimators emptyCorpus (17/20) 1 "a" chooserMin 1
      (by decide) (by decide) (by decide)⟩

lemma transition_model_normalize (c : Corpus) (page : Page) (d : ℚ) :
    transition_model (normalize c) page d = transition_model c page d := by
  by_cases hp : page ∈ c.pages
  · have hp' : ¬ page ∉ c.pages := not_not_intro hp
    by_cases h0 : c.links page = ∅
    · have hl : (normalize c).links page = c.pages := by
        simp [normalize, hp, h0]
      have hcard : 0 < c.pages.card := Finset.card_pos.mpr ⟨page, hp⟩
      have hNQ : (c.pages.card : ℚ) ≠ 0 := by positivity
      simp only [transition_model, normalize_pages, hl, h0, hp', if_false,
        Finset.card_empty, lt_irrefl, if_pos hcard]
      congr 1
      refine dist_ext rfl (fun p => ?_)
      by_cases hpc : p ∈ c.pages
      · simp only [hpc, if_true]
        field_simp
      · simp [hpc]
    · have hl : (normalize c).links page = c.links page := by
        simp [normalize, h0]
      simp only [transition_model, normalize_pages, hl]
  · simp only [transition_model, normalize_pages, if_pos hp]

lemma sampleLoop_normalize (c : Corpus) (d : ℚ) (chooser : ℕ → Dist → Page) :
    ∀ (k : ℕ) (current : Page) (counts : Page → ℕ),
      sampleLoop (normalize c) d chooser k current counts
        = sampleLoop c d chooser k current counts := by
  intro k
  induction k with
  | zero => intro current counts; rfl
  | succ k ih =>
    intro current counts
    unfold sampleLoop
    rw [transition_model_normalize]
    cases htm : transition_model c current d with
    | error e => rfl
    | ok dist => exact ih _ _

lemma sample_pagerank_normalize (c : Corpus) (d : ℚ) (n : ℤ) (start : Page)
    (chooser : ℕ → Dist → Page) :
    sample_pagerank (normalize c) d n start chooser
      = sample_pagerank c d n start chooser := by
  unfold sample_pagerank
  rw [normalize_pages, sampleLoop_normalize]

/-- C3 amended: the iterative estimator does mutate the caller's corpus — what
the caller observes afterwards is the dead-end-normalized corpus, which
differs from the original exactly when some page has no out-links — but the
normalization changes no transition distribution, so a subsequent sampling
estimator call (with the same random draws) returns the same result on the
mutated corpus as on the original; the sampling estimator itself never writes
to the corpus. -/
theorem iterate_pagerank_normalization_visibility (corpus : Corpus) :
    (∀ (d : ℚ) (fuel : ℕ) (rc : (Page → ℚ) × Corpus),
      iterate_pagerank corpus d fuel = some rc → rc.2 = normalize corpus) ∧
    (∀ (d : ℚ) (n : ℤ) (start : Page) (chooser : ℕ → Dist → Page),
      sample_pagerank (normalize corpus) d n start chooser
        = sample_pagerank corpus d n start chooser) ∧
    (normalize corpus = corpus ↔ ∀ p ∈ corpus.pages, corpus.links p ≠ ∅) := by
  refine ⟨?_, fun d n start chooser => sample_pagerank_normalize corpus d n start chooser, ?_, ?_⟩
  · intro d fuel rc hrc
    obtain ⟨a, ha, hfa⟩ := Option.map_eq_some'.mp hrc
    rw [← hfa]
  · intro heq p hp h0
    have hlinks : (normalize corpus).links p = corpus.links p :=
      congrFun (congrArg Corpus.links heq) p
    rw [h0] at hlinks
    have : (normalize corpus).links p = corpus.pages := by
      simp [normalize, hp, h0]
    rw [this] at hlinks
    exact absurd (hlinks ▸ hp) (Finset.not_mem_empty p)
  · intro hnd
    refine corpus_ext rfl (fun p => ?_)
    show (if p ∈ corpus.pages ∧ corpus.links p = ∅ then corpus.pages else corpus.links p)
      = corpus.links p
    rw [if_neg]
    rintro ⟨hp, h0⟩
    exact hnd p hp h0

lemma stepRanks_deadEnd_close : allClose (normalize deadEndCorpus)
    (stepRanks (normalize deadEndCorpus) (1/1000) (initRanks deadEndCorpus))
    (initRanks deadEndCorpus) := by
  unfold allClose
  intro p hp
  rw [normalize_pages] at hp
  have hp' : p = "a" ∨ p = "b" := by
    simpa [deadEndCorpus] using hp
  rcases hp' with rfl | rfl
  · simp only [stepRanks, initRanks, normalize, deadEndCorpus]
    rw [Finset.sum_insert (by decide), Finset.sum_singleton]
    simp +decide
    rw [abs_sub_lt_iff]
    constructor <;> norm_num
  · simp only [stepRanks, initRanks, normalize, deadEndCorpus]
    rw [Finset.sum_insert (by decide), Finset.sum_singleton]
    simp +decide
    rw [abs_sub_lt_iff]
    constructor <;> norm_num

/-- C3 counterexample: running the iterative estimator on the dead-end corpus
leaves the caller's corpus object changed: afterwards page a's out-link set is
all pages, where the original corpus had it empty. -/
theorem iterate_pagerank_mutates_corpus :
    (iterate_pagerank deadEndCorpus (1/1000) 1).map (fun rc => rc.2)
      = some (normalize deadEndCorpus) ∧
    (normalize deadEndCorpus).links "a" = ({"a", "b"} : Finset Page) ∧
    deadEndCorpus.links "a" = (∅ : Finset Page) ∧
    normalize deadEndCorpus ≠ deadEndCorpus := by
  refine ⟨?_, by decide, by decide, ?_⟩
  · unfold iterate_pagerank
    rw [show (1 : ℕ) = 0 + 1 from rfl, iterLoop_succ, if_pos stepRanks_deadEnd_close]
    rfl
  · intro heq
    exact absurd (congrFun (congrArg Corpus.links heq) "a") (by decide)

/-- Witness for the amended C3: on the dead-end corpus the normalized corpus
the caller ends up with differs from the original. -/
theorem iterate_pagerank_normalization_visibility_witness :
    normalize deadEndCorpus ≠ deadEndCorpus :=
  fun heq =>
    ((iterate_pagerank_normalization_visibility deadEndCorpus).2.2.mp heq "a"
      (by decide)) (by decide)

end PageRank
